import Mathlib

/-!
Verification of the safedotenv encryption engine (`main.go`) against its
specification.  Bytes are modelled as natural numbers (`Nat.xor` on values
below 256 matches Go's byte XOR), byte slices as `List Byte`, and fallible
operations as `Option`/`Except`.  File I/O is modelled by values: the byte
list returned by `encryptFile`/`decryptFile` is the content written to the
output file, and `none` means no file is written.
-/

abbrev Byte := Nat

/-- Block size of the cipher, `aes.BlockSize` in the Go source. -/
def aesBlockSize : Nat := 16

/-- Embedding of `pkcs7Pad` from `main.go`: append `blockSize - len % blockSize`
copies of that value. -/
def pkcs7Pad (data : List Byte) (blockSize : Nat) : List Byte :=
  let padLen := blockSize - data.length % blockSize
  data ++ List.replicate padLen padLen

/-- Embedding of `pkcs7Unpad` from `main.go`: reject empty input, read the last
byte as the pad length, reject it if it exceeds the length, otherwise drop
that many bytes from the end.  `none` stands for `io.ErrUnexpectedEOF`. -/
def pkcs7Unpad (data : List Byte) : Option (List Byte) :=
  let length := data.length
  if length = 0 then none
  else
    let padLen := data.getLastD 0
    if padLen > length then none
    else some (data.take (length - padLen))

/-- Modelled from the spec: the external AES-256 block cipher (`crypto/aes`,
not part of this repository).  The spec calls it "a block cipher": a pair of
keyed maps on 16-byte blocks, each length preserving, with decryption
inverting encryption.  One `BlockCipher` value stands for the cipher under
one fixed derived key. -/
structure BlockCipher where
  enc : List Byte → List Byte
  dec : List Byte → List Byte
  enc_len : ∀ b : List Byte, b.length = 16 → (enc b).length = 16
  dec_len : ∀ b : List Byte, b.length = 16 → (dec b).length = 16
  dec_enc : ∀ b : List Byte, b.length = 16 → dec (enc b) = b

/-- Bytewise XOR of two byte slices, as performed inside Go's CBC modes. -/
def xorBytes (a b : List Byte) : List Byte := List.zipWith Nat.xor a b

/-- Fuel-driven worker for `toBlocks`; the fuel only bounds the recursion
depth and never runs out when it starts at the list's length. -/
def toBlocksFuel : Nat → List Byte → List (List Byte)
  | _, [] => []
  | 0, _ :: _ => []
  | fuel + 1, x :: xs => ((x :: xs).take 16) :: toBlocksFuel fuel ((x :: xs).drop 16)

/-- Split a byte slice into consecutive 16-byte blocks, the way
`CryptBlocks` walks its input. -/
def toBlocks (l : List Byte) : List (List Byte) :=
  toBlocksFuel l.length l

theorem toBlocksFuel_congr :
    ∀ (f g : Nat) (l : List Byte), l.length ≤ f → l.length ≤ g →
      toBlocksFuel f l = toBlocksFuel g l := by
  intro f
  induction f with
  | zero =>
      intro g l h1 _
      have : l = [] := List.length_eq_zero.mp (by omega)
      subst this
      cases g <;> rfl
  | succ f ih =>
      intro g l h1 h2
      cases l with
      | nil => cases g <;> rfl
      | cons x xs =>
          cases g with
          | zero => simp at h2
          | succ g =>
              simp only [toBlocksFuel]
              congr 1
              apply ih
              · simp only [List.length_drop, List.length_cons] at *; omega
              · simp only [List.length_drop, List.length_cons] at *; omega

/-- Unfolding equation of `toBlocks`: peel one 16-byte block at a time. -/
theorem toBlocks_eq (l : List Byte) :
    toBlocks l = if l = [] then [] else l.take 16 :: toBlocks (l.drop 16) := by
  cases l with
  | nil => rfl
  | cons x xs =>
      rw [if_neg (List.cons_ne_nil x xs)]
      show toBlocksFuel (x :: xs).length (x :: xs) = _
      rw [List.length_cons]
      simp only [toBlocksFuel]
      congr 1
      apply toBlocksFuel_congr
      · simp only [List.length_drop, List.length_cons]; omega
      · exact le_refl _

/-- Modelled from the spec: cipher-block-chaining encryption
(`cipher.NewCBCEncrypter.CryptBlocks`, external to this repository).  Each
plaintext block is XORed with the previous ciphertext block (initially the
IV) before the block cipher encrypts it. -/
def cbcEncBlocks (C : BlockCipher) (prev : List Byte) : List (List Byte) → List (List Byte)
  | [] => []
  | p :: ps =>
      let c := C.enc (xorBytes p prev)
      c :: cbcEncBlocks C c ps

/-- Modelled from the spec: cipher-block-chaining decryption
(`cipher.NewCBCDecrypter.CryptBlocks`, external to this repository).  Each
ciphertext block is decrypted and XORed with the previous ciphertext block
(initially the IV). -/
def cbcDecBlocks (C : BlockCipher) (prev : List Byte) : List (List Byte) → List (List Byte)
  | [] => []
  | c :: cs => xorBytes (C.dec c) prev :: cbcDecBlocks C c cs

/-- Ciphertext produced by `encryptFile` for a given plaintext and IV:
CBC encryption of the PKCS7-padded plaintext. -/
def fileCiphertext (plaintext iv : List Byte) (C : BlockCipher) : List Byte :=
  (cbcEncBlocks C iv (toBlocks (pkcs7Pad plaintext aesBlockSize))).flatten

/-- Embedding of `encryptFile` from `main.go`, with the file system and the
random source made explicit: `plaintext` is the content read from the input
file, `iv` the 16 random bytes produced by `rand.Read`, and the result is
the content written to the output file (`iv || ciphertext`). -/
def encryptFile (plaintext iv : List Byte) (C : BlockCipher) : List Byte :=
  iv ++ fileCiphertext plaintext iv C

/-- CBC decryption of an envelope's ciphertext portion under the IV recorded
in its first 16 bytes, before padding removal. -/
def decryptedData (data : List Byte) (C : BlockCipher) : List Byte :=
  (cbcDecBlocks C (data.take 16) (toBlocks (data.drop 16))).flatten

/-- Embedding of `decryptFile` from `main.go`: `data` is the content of the
input file; `none` stands for the `io.ErrUnexpectedEOF` failures (too short,
misaligned ciphertext, invalid padding), in which case no output file is
written; `some p` means `p` is written to the output file. -/
def decryptFile (data : List Byte) (C : BlockCipher) : Option (List Byte) :=
  if data.length < aesBlockSize then none
  else if (data.drop 16).length % aesBlockSize ≠ 0 then none
  else pkcs7Unpad (decryptedData data C)

/-- The identity block cipher: the simplest key-indexed instance of the
abstract cipher interface, used to evaluate the file pipeline on concrete
inputs. -/
def idCipher : BlockCipher where
  enc := id
  dec := id
  enc_len := fun _ h => h
  dec_len := fun _ h => h
  dec_enc := fun _ _ => rfl

/-- Embedding of the `SuffixEncrypted` constant from `main.go`.  Paths are
modelled as lists of characters; the suffix is pure ASCII, so Go's byte-wise
slicing and character-wise slicing agree on it. -/
def SuffixEncrypted : List Char := "-encrypted".toList

/-- Output path of `encryptFile`: the input path with `SuffixEncrypted`
appended (`inputPath+SuffixEncrypted` in the Go source). -/
def encryptOutputPath (inputPath : List Char) : List Char :=
  inputPath ++ SuffixEncrypted

/-- Output path of `decryptFile`: the input path truncated by the length of
`SuffixEncrypted` (`inputPath[:len(inputPath)-len(SuffixEncrypted)]`). -/
def decryptOutputPath (inputPath : List Char) : List Char :=
  inputPath.take (inputPath.length - SuffixEncrypted.length)

/-- One entry of a directory listing, as `os.ReadDir` reports it: a regular
file, or a subdirectory whose own listing is either readable (`some`) or
unreadable (`none`, the case where `os.ReadDir` would return an error). -/
inductive Entry : Type where
  | file (name : String) : Entry
  | dir (name : String) (contents : Option (List Entry)) : Entry

mutual

/-- Size of one directory entry, the measure for traversal termination. -/
def entrySize : Entry → Nat
  | .file _ => 1
  | .dir _ none => 1
  | .dir _ (some es) => 1 + entriesSize es

/-- Total size of a directory listing. -/
def entriesSize : List Entry → Nat
  | [] => 0
  | e :: es => entrySize e + entriesSize es

end

mutual

/-- Whether a directory entry and everything below it can be read. -/
def entryReadable : Entry → Bool
  | .file _ => true
  | .dir _ none => false
  | .dir _ (some es) => entriesReadable es

/-- Whether every directory at or below a listing can be read. -/
def entriesReadable : List Entry → Bool
  | [] => true
  | e :: es => entryReadable e && entriesReadable es

end

/-- Whether the result of reading a directory is itself readable, all the
way down. -/
def optReadable : Option (List Entry) → Bool
  | none => false
  | some es => entriesReadable es

/-- The file paths appended by `getDotenvPaths` while iterating over one
directory listing: regular files whose name matches the marker of the
requested mode (`.env` when encrypting, `.env-encrypted` when decrypting),
prefixed with the directory's path. -/
def matchedFiles (encrypt : Bool) (currentDir : String) (files : List Entry) : List String :=
  files.filterMap fun e =>
    match e with
    | .dir _ _ => none
    | .file n =>
        if n = ".env" ∧ encrypt = true then some (currentDir ++ "/" ++ n)
        else if n = ".env-encrypted" ∧ encrypt = false then some (currentDir ++ "/" ++ n)
        else none

/-- The subdirectories pushed onto the stack by `getDotenvPaths` while
iterating over one directory listing, paired with their (possibly
unreadable) contents. -/
def childDirs (currentDir : String) (files : List Entry) : List (String × Option (List Entry)) :=
  files.filterMap fun e =>
    match e with
    | .dir n c => some (currentDir ++ "/" ++ n, c)
    | .file _ => none

/-- Termination measure for one stack item of the scan. -/
def stackItemSize : String × Option (List Entry) → Nat
  | (_, none) => 1
  | (_, some es) => 1 + entriesSize es

theorem childDirs_size_le (p : String) (es : List Entry) :
    ((childDirs p es).map stackItemSize).sum ≤ entriesSize es := by
  induction es with
  | nil => simp [childDirs, entriesSize]
  | cons e es ih =>
      cases e with
      | file n =>
          simp only [childDirs, List.filterMap_cons] at *
          simp only [entriesSize, entrySize]
          omega
      | dir n c =>
          simp only [childDirs, List.filterMap_cons] at *
          simp only [entriesSize, List.map_cons, List.sum_cons]
          cases c with
          | none => simp only [entrySize, stackItemSize]; omega
          | some fs => simp only [entrySize, stackItemSize]; omega

/-- Embedding of the main loop of `getDotenvPaths` from `main.go`.  The Go
code keeps a stack of directory paths and pops from the slice's end; here the
list's head is the stack's top, so the children discovered in one listing are
pushed reversed, which preserves the pop order.  Each stack item carries the
listing `os.ReadDir` would return for that path (`none` if reading fails, in
which case the Go code calls `log.Fatal` — modelled as `Except.error`). -/
def scanLoop (encrypt : Bool) (stack : List (String × Option (List Entry)))
    (acc : List String) : Except Unit (List String) :=
  match stack with
  | [] => .ok acc
  | (_, none) :: _ => .error ()
  | (currentDir, some files) :: rest =>
      scanLoop encrypt ((childDirs currentDir files).reverse ++ rest)
        (acc ++ matchedFiles encrypt currentDir files)
termination_by (stack.map stackItemSize).sum
decreasing_by
  simp only [List.map_append, List.sum_append, List.map_reverse, List.sum_reverse,
    List.map_cons, List.sum_cons, stackItemSize]
  have := childDirs_size_le currentDir files
  omega

/-- Embedding of `getDotenvPaths` from `main.go`: iterative depth-first scan
starting from the root folder, collecting the paths of marker-named files.
`rootContents` is what `os.ReadDir` returns for the root. -/
def getDotenvPaths (folder : String) (rootContents : Option (List Entry))
    (encrypt : Bool) : Except Unit (List String) :=
  scanLoop encrypt [(folder, rootContents)] []

mutual

/-- Specification-side description of scanning: the paths of all regular
files named `target`, anywhere below a listing, in listing order. -/
def filesNamed (target : String) (currentDir : String) : List Entry → List String
  | [] => []
  | e :: es => entryFilesNamed target currentDir e ++ filesNamed target currentDir es

/-- The paths of all regular files named `target` at or below one entry. -/
def entryFilesNamed (target : String) (currentDir : String) : Entry → List String
  | .file n => if n = target then [currentDir ++ "/" ++ n] else []
  | .dir _ none => []
  | .dir n (some es) => filesNamed target (currentDir ++ "/" ++ n) es

end

/-- Marker filename selected by the mode flag, as in the `getDotenvPaths`
comparison chain. -/
def markerName (encrypt : Bool) : String :=
  if encrypt then ".env" else ".env-encrypted"

/-- Big-endian 4-byte encoding of a 32-bit block index, as PBKDF2 feeds it
to the pseudo-random function. -/
def beUint32 (n : Nat) : List Byte :=
  [n / 2 ^ 24 % 256, n / 2 ^ 16 % 256, n / 2 ^ 8 % 256, n % 256]

/-- Modelled from the spec: the iteration core of the external PBKDF2
implementation (`golang.org/x/crypto/pbkdf2`, not part of this repository).
The state is the pair of the running XOR accumulator `T` and the latest
chain value `U`; each round replaces `U` with `prfk U` and XORs it into
`T`. -/
def pbkdf2Rounds (prfk : List Byte → List Byte) :
    Nat → List Byte × List Byte → List Byte × List Byte
  | 0, st => st
  | n + 1, (t, u) =>
      let u1 := prfk u
      pbkdf2Rounds prfk n (xorBytes t u1, u1)

/-- Modelled from the spec: one output block `T_i` of PBKDF2 — the XOR of
`iter` chained applications of the keyed pseudo-random function, seeded with
`salt || big-endian i`. -/
def pbkdf2Block (prfk : List Byte → List Byte) (salt : List Byte)
    (iter blockIdx : Nat) : List Byte :=
  let u1 := prfk (salt ++ beUint32 blockIdx)
  (pbkdf2Rounds prfk (iter - 1) (u1, u1)).1

/-- Modelled from the spec: the external `pbkdf2.Key` function — iterative
hashing with the given salt and iteration count, the successive blocks
concatenated and truncated to `keyLen` bytes.  `prf` is the pseudo-random
function keyed by the password (HMAC of the chosen hash, whose output length
is `hashLen`). -/
def pbkdf2 (prf : List Byte → List Byte → List Byte) (password salt : List Byte)
    (iter keyLen hashLen : Nat) : List Byte :=
  let numBlocks := (keyLen + hashLen - 1) / hashLen
  (((List.range numBlocks).map fun i =>
      pbkdf2Block (prf password) salt iter (i + 1)).flatten).take keyLen

/-- The fixed salt constant of `getPassphrase` in `main.go`, the bytes of
the string `"somesalt"`. -/
def fixedSalt : List Byte := "somesalt".toList.map Char.toNat

/-- The fixed iteration count passed to `pbkdf2.Key` in `main.go`. -/
def pbkdf2Iterations : Nat := 4096

/-- The derived-key length in bytes passed to `pbkdf2.Key` in `main.go`. -/
def derivedKeyLength : Nat := 32

/-- Embedding of the key-derivation step of `getPassphrase` from `main.go`:
`pbkdf2.Key(passphrase, "somesalt", 4096, 32, sha256.New)`, abstracted over
the pseudo-random function `prf` (HMAC-SHA256, whose 32-byte output length
is a hypothesis of the theorems below). -/
def deriveKey (prf : List Byte → List Byte → List Byte) (passphrase : List Byte) : List Byte :=
  pbkdf2 prf passphrase fixedSalt pbkdf2Iterations derivedKeyLength 32

/-- A constant pseudo-random function with 32-byte output, used to evaluate
key derivation on concrete inputs. -/
def constPrf : List Byte → List Byte → List Byte :=
  fun _ _ => List.replicate 32 0

theorem xorBytes_length (a b : List Byte) :
    (xorBytes a b).length = min a.length b.length := by
  simp [xorBytes]

theorem xorBytes_xorBytes_cancel (a b : List Byte) (h : a.length ≤ b.length) :
    xorBytes (xorBytes a b) b = a := by
  induction a generalizing b with
  | nil => simp [xorBytes]
  | cons x a ih =>
      cases b with
      | nil => simp at h
      | cons y b =>
          simp only [xorBytes, List.zipWith_cons_cons] at *
          exact congrArg₂ (· :: ·) (Nat.xor_cancel_right y x)
            (ih b (by simp only [List.length_cons] at h; omega))

theorem pkcs7Pad_length (d : List Byte) :
    (pkcs7Pad d aesBlockSize).length = d.length + (16 - d.length % 16) := by
  simp [pkcs7Pad, aesBlockSize]

theorem pkcs7Pad_length_mod (d : List Byte) :
    (pkcs7Pad d aesBlockSize).length % 16 = 0 := by
  rw [pkcs7Pad_length]
  omega

theorem getLastD_append_replicate (l : List Byte) (k : Nat) (hk : 0 < k) :
    (l ++ List.replicate k k).getLastD 0 = k := by
  obtain ⟨m, rfl⟩ : ∃ m, k = m + 1 := ⟨k - 1, by omega⟩
  rw [List.replicate_succ', ← List.append_assoc]
  exact List.getLastD_concat _ _ _

theorem pkcs7Unpad_append_replicate (P : List Byte) (k : Nat) (h1 : 0 < k) :
    pkcs7Unpad (P ++ List.replicate k k) = some P := by
  have hlen : (P ++ List.replicate k k).length = P.length + k := by simp
  have hlast := getLastD_append_replicate P k h1
  simp only [pkcs7Unpad, hlen, hlast]
  have h0 : ¬(P.length + k = 0) := by omega
  have h2 : ¬(k > P.length + k) := by omega
  rw [if_neg h0, if_neg h2]
  have ht : P.length + k - k = P.length := by omega
  rw [ht, List.take_append_of_le_length (le_refl _), List.take_length]

theorem pkcs7Unpad_pkcs7Pad (P : List Byte) :
    pkcs7Unpad (pkcs7Pad P aesBlockSize) = some P := by
  have hlt : P.length % 16 < 16 := Nat.mod_lt _ (by omega)
  have hpad : pkcs7Pad P aesBlockSize
      = P ++ List.replicate (16 - P.length % 16) (16 - P.length % 16) := by
    simp [pkcs7Pad, aesBlockSize]
  rw [hpad]
  exact pkcs7Unpad_append_replicate P _ (by omega)

theorem flatten_toBlocks (l : List Byte) : (toBlocks l).flatten = l := by
  have H : ∀ (n : Nat) (l : List Byte), l.length ≤ n → (toBlocks l).flatten = l := by
    intro n
    induction n with
    | zero =>
        intro l h
        have : l = [] := List.length_eq_zero.mp (by omega)
        subst this
        rfl
    | succ n ih =>
        intro l h
        rw [toBlocks_eq]
        by_cases hl : l = []
        · subst hl; rfl
        · rw [if_neg hl, List.flatten_cons,
            ih (l.drop 16) (by
              have : l.length ≠ 0 := fun h0 => hl (List.length_eq_zero.mp h0)
              rw [List.length_drop]; omega),
            List.take_append_drop]
  exact H l.length l (le_refl _)

theorem toBlocks_blocks_length (l : List Byte) :
    l.length % 16 = 0 → ∀ b ∈ toBlocks l, b.length = 16 := by
  have H : ∀ (n : Nat) (l : List Byte), l.length ≤ n → l.length % 16 = 0 →
      ∀ b ∈ toBlocks l, b.length = 16 := by
    intro n
    induction n with
    | zero =>
        intro l h _ b hb
        have : l = [] := List.length_eq_zero.mp (by omega)
        subst this
        simp [toBlocks, toBlocksFuel] at hb
    | succ n ih =>
        intro l h hmod b hb
        rw [toBlocks_eq] at hb
        by_cases hl : l = []
        · simp [hl] at hb
        · have hl0 : l.length ≠ 0 := fun h0 => hl (List.length_eq_zero.mp h0)
          rw [if_neg hl] at hb
          rcases List.mem_cons.mp hb with rfl | hb
          · rw [List.length_take]; omega
          · exact ih (l.drop 16) (by rw [List.length_drop]; omega)
              (by rw [List.length_drop]; omega) b hb
  exact H l.length l (le_refl _)

theorem flatten_length_of_blocks (bs : List (List Byte))
    (h : ∀ b ∈ bs, b.length = 16) : bs.flatten.length = 16 * bs.length := by
  induction bs with
  | nil => simp
  | cons b bs ih =>
      have hb : b.length = 16 := h b (by simp)
      have := ih fun b' hb' => h b' (by simp [hb'])
      simp only [List.flatten_cons, List.length_append, List.length_cons, hb, this]
      ring

theorem toBlocks_flatten_eq (bs : List (List Byte)) (h : ∀ b ∈ bs, b.length = 16) :
    toBlocks bs.flatten = bs := by
  induction bs with
  | nil => rw [List.flatten_nil]; rfl
  | cons b bs ih =>
      have hb : b.length = 16 := h b (by simp)
      have hbne : b ≠ [] := by intro h0; rw [h0] at hb; simp at hb
      have hne : b ++ bs.flatten ≠ [] := by
        intro h0; exact hbne (List.append_eq_nil.mp h0).1
      rw [List.flatten_cons, toBlocks_eq, if_neg hne]
      congr 1
      · rw [← hb, List.take_left]
      · rw [← hb, List.drop_left]; exact ih fun b' hb' => h b' (by simp [hb'])

theorem cbcEncBlocks_length_eq (C : BlockCipher) (prev : List Byte)
    (ps : List (List Byte)) : (cbcEncBlocks C prev ps).length = ps.length := by
  induction ps generalizing prev with
  | nil => rfl
  | cons p ps ih => simp only [cbcEncBlocks, List.length_cons, ih]

theorem cbcEncBlocks_blocks_length (C : BlockCipher) (prev : List Byte)
    (ps : List (List Byte)) (hprev : prev.length = 16)
    (hps : ∀ p ∈ ps, p.length = 16) :
    ∀ c ∈ cbcEncBlocks C prev ps, c.length = 16 := by
  induction ps generalizing prev with
  | nil => simp [cbcEncBlocks]
  | cons p ps ih =>
      intro c hc
      simp only [cbcEncBlocks] at hc
      have hx : (xorBytes p prev).length = 16 := by
        simp [xorBytes_length, hps p (by simp), hprev]
      have hc1 : (C.enc (xorBytes p prev)).length = 16 := C.enc_len _ hx
      rcases List.mem_cons.mp hc with rfl | hc
      · exact hc1
      · exact ih _ hc1 (fun q hq => hps q (by simp [hq])) c hc

theorem cbcDecBlocks_cbcEncBlocks (C : BlockCipher) (prev : List Byte)
    (ps : List (List Byte)) (hprev : prev.length = 16)
    (hps : ∀ p ∈ ps, p.length = 16) :
    cbcDecBlocks C prev (cbcEncBlocks C prev ps) = ps := by
  induction ps generalizing prev with
  | nil => rfl
  | cons p ps ih =>
      have hp : p.length = 16 := hps p (by simp)
      have hx : (xorBytes p prev).length = 16 := by
        simp [xorBytes_length, hp, hprev]
      simp only [cbcEncBlocks, cbcDecBlocks]
      rw [C.dec_enc _ hx]
      congr 1
      · exact xorBytes_xorBytes_cancel p prev (by omega)
      · exact ih _ (C.enc_len _ hx) (fun q hq => hps q (by simp [hq]))

/-- C1: for every plaintext byte sequence P (including the empty sequence and
sequences whose length is an exact multiple of 16) and every derived key
(any valid block cipher instance), decrypting the envelope produced by
encrypting P under that key with the IV recorded in the envelope returns
exactly P. -/
theorem encryptFile_decryptFile_roundtrip (C : BlockCipher) (P iv : List Byte)
    (hiv : iv.length = 16) :
    decryptFile (encryptFile P iv C) C = some P := by
  have hblocks : ∀ b ∈ toBlocks (pkcs7Pad P aesBlockSize), b.length = 16 :=
    toBlocks_blocks_length _ (pkcs7Pad_length_mod P)
  have hencblocks : ∀ c ∈ cbcEncBlocks C iv (toBlocks (pkcs7Pad P aesBlockSize)),
      c.length = 16 :=
    cbcEncBlocks_blocks_length C iv _ hiv hblocks
  have hctlen : (fileCiphertext P iv C).length
      = 16 * (cbcEncBlocks C iv (toBlocks (pkcs7Pad P aesBlockSize))).length :=
    flatten_length_of_blocks _ hencblocks
  simp only [decryptFile, encryptFile]
  have h1 : ¬((iv ++ fileCiphertext P iv C).length < aesBlockSize) := by
    simp only [List.length_append, hiv, aesBlockSize]; omega
  rw [if_neg h1]
  have hdrop : (iv ++ fileCiphertext P iv C).drop 16 = fileCiphertext P iv C := by
    rw [← hiv, List.drop_left]
  have htake : (iv ++ fileCiphertext P iv C).take 16 = iv := by
    rw [← hiv, List.take_left]
  have h2 : ¬(((iv ++ fileCiphertext P iv C).drop 16).length % aesBlockSize ≠ 0) := by
    rw [hdrop, hctlen]; simp only [aesBlockSize]; omega
  rw [if_neg h2]
  simp only [decryptedData, htake, hdrop]
  have hblocksEq : toBlocks (fileCiphertext P iv C)
      = cbcEncBlocks C iv (toBlocks (pkcs7Pad P aesBlockSize)) := by
    simp only [fileCiphertext]
    exact toBlocks_flatten_eq _ hencblocks
  rw [hblocksEq, cbcDecBlocks_cbcEncBlocks C iv _ hiv hblocks, flatten_toBlocks]
  exact pkcs7Unpad_pkcs7Pad P

/-- Witness for C1: the round trip evaluated at a concrete plaintext, IV and
cipher instance. -/
theorem encryptFile_decryptFile_roundtrip_witness :
    (List.replicate 16 (0 : Byte)).length = 16 ∧
    decryptFile (encryptFile [1, 2, 3] (List.replicate 16 0) idCipher) idCipher
      = some [1, 2, 3] :=
  ⟨by decide,
    encryptFile_decryptFile_roundtrip idCipher [1, 2, 3] (List.replicate 16 0) (by decide)⟩

/-- C3: a plaintext whose length is an exact multiple of 16 receives a full
16-byte pad block (value 16 repeated 16 times); for any plaintext the pad
length N satisfies 1 ≤ N ≤ 16 and the padding is N repeated N times; and
padding removal on the padded result returns exactly the plaintext. -/
theorem pkcs7Pad_full_block (P : List Byte) (h : P.length % 16 = 0) :
    pkcs7Pad P aesBlockSize = P ++ List.replicate 16 16 ∧
    (∀ Q : List Byte,
        1 ≤ aesBlockSize - Q.length % aesBlockSize ∧
        aesBlockSize - Q.length % aesBlockSize ≤ 16 ∧
        pkcs7Pad Q aesBlockSize
          = Q ++ List.replicate (aesBlockSize - Q.length % aesBlockSize)
              (aesBlockSize - Q.length % aesBlockSize)) ∧
    pkcs7Unpad (pkcs7Pad P aesBlockSize) = some P := by
  refine ⟨by simp [pkcs7Pad, aesBlockSize, h], ?_, pkcs7Unpad_pkcs7Pad P⟩
  intro Q
  have : Q.length % 16 < 16 := Nat.mod_lt _ (by omega)
  exact ⟨by simp only [aesBlockSize]; omega, by simp only [aesBlockSize]; omega, rfl⟩

/-- Witness for C3 at a 16-byte plaintext. -/
theorem pkcs7Pad_full_block_witness :
    (List.replicate 16 (7 : Byte)).length % 16 = 0 ∧
    pkcs7Pad (List.replicate 16 (7 : Byte)) aesBlockSize
      = List.replicate 16 7 ++ List.replicate 16 16 ∧
    pkcs7Unpad (pkcs7Pad (List.replicate 16 (7 : Byte)) aesBlockSize)
      = some (List.replicate 16 7) :=
  ⟨by decide, (pkcs7Pad_full_block (List.replicate 16 7) (by decide)).1,
    (pkcs7Pad_full_block (List.replicate 16 7) (by decide)).2.2⟩

/-- C5: the envelope emitted by encryption is `iv ++ ciphertext` with a
16-byte IV, a ciphertext whose length is a positive multiple of 16, and a
total length of 16 plus the ciphertext length; the whole envelope is the
value written to the output file. -/
theorem encryptFile_envelope_layout (C : BlockCipher) (P iv : List Byte)
    (hiv : iv.length = 16) :
    encryptFile P iv C = iv ++ fileCiphertext P iv C ∧
    iv.length = 16 ∧
    (fileCiphertext P iv C).length % 16 = 0 ∧
    0 < (fileCiphertext P iv C).length ∧
    (encryptFile P iv C).length = 16 + (fileCiphertext P iv C).length := by
  have hblocks : ∀ b ∈ toBlocks (pkcs7Pad P aesBlockSize), b.length = 16 :=
    toBlocks_blocks_length _ (pkcs7Pad_length_mod P)
  have hencblocks := cbcEncBlocks_blocks_length C iv _ hiv hblocks
  have hct : (fileCiphertext P iv C).length
      = 16 * (toBlocks (pkcs7Pad P aesBlockSize)).length := by
    rw [fileCiphertext, flatten_length_of_blocks _ hencblocks, cbcEncBlocks_length_eq]
  have hpl : (pkcs7Pad P aesBlockSize).length
      = 16 * (toBlocks (pkcs7Pad P aesBlockSize)).length := by
    conv_lhs => rw [← flatten_toBlocks (pkcs7Pad P aesBlockSize)]
    exact flatten_length_of_blocks _ hblocks
  have hplen := pkcs7Pad_length P
  refine ⟨rfl, hiv, ?_, ?_, ?_⟩
  · rw [hct]; omega
  · rw [hct, ← hpl, hplen]; omega
  · simp [encryptFile, hiv]

/-- Witness for C5 at a concrete plaintext, IV and cipher instance. -/
theorem encryptFile_envelope_layout_witness :
    (List.replicate 16 (0 : Byte)).length = 16 ∧
    (fileCiphertext [9] (List.replicate 16 0) idCipher).length % 16 = 0 ∧
    0 < (fileCiphertext [9] (List.replicate 16 0) idCipher).length ∧
    (encryptFile [9] (List.replicate 16 0) idCipher).length
      = 16 + (fileCiphertext [9] (List.replicate 16 0) idCipher).length :=
  ⟨by decide,
    (encryptFile_envelope_layout idCipher [9] (List.replicate 16 0) (by decide)).2.2.1,
    (encryptFile_envelope_layout idCipher [9] (List.replicate 16 0) (by decide)).2.2.2.1,
    (encryptFile_envelope_layout idCipher [9] (List.replicate 16 0) (by decide)).2.2.2.2⟩

theorem pkcs7Unpad_eq_none_iff (d : List Byte) :
    pkcs7Unpad d = none ↔ d = [] ∨ d.getLastD 0 > d.length := by
  simp only [pkcs7Unpad]
  by_cases h : d.length = 0
  · have hd : d = [] := List.length_eq_zero.mp h
    simp [hd]
  · have hd : ¬(d = []) := fun h0 => h (by simp [h0])
    rw [if_neg h]
    by_cases h2 : d.getLastD 0 > d.length
    · simp [h2, hd]
    · simp [h2, hd]

theorem decryptedData_eq_nil_iff (C : BlockCipher) (data : List Byte)
    (h16 : 16 ≤ data.length) (hmod : (data.length - 16) % 16 = 0) :
    decryptedData data C = [] ↔ data.length = 16 := by
  constructor
  · intro h
    by_contra hne
    have hct : (data.drop 16).length = data.length - 16 := List.length_drop _ _
    have hge : 16 ≤ (data.drop 16).length := by omega
    have hne2 : data.drop 16 ≠ [] := by
      intro h0; rw [h0] at hct; simp at hct; omega
    rw [decryptedData, toBlocks_eq, if_neg hne2] at h
    simp only [cbcDecBlocks, List.flatten_cons] at h
    have hhead := (List.append_eq_nil.mp h).1
    have hb : ((data.drop 16).take 16).length = 16 := by
      rw [List.length_take]; omega
    have hivlen : (data.take 16).length = 16 := by
      rw [List.length_take]; omega
    have : (xorBytes (C.dec ((data.drop 16).take 16)) (data.take 16)).length = 16 := by
      rw [xorBytes_length, C.dec_len _ hb, hivlen]
      rfl
    rw [hhead] at this
    simp at this
  · intro h
    have hnil : data.drop 16 = [] := by
      apply List.eq_nil_of_length_eq_zero
      rw [List.length_drop]; omega
    rw [decryptedData, hnil]
    rfl

/-- Counterexample to C2 as stated: the 16-byte all-zero envelope (empty
ciphertext) makes decryption fail, yet its total length is not below 16, its
ciphertext length is a multiple of 16, and the final pad-length byte of the
(empty) decrypted data does not exceed the decrypted data's length. -/
theorem decryptFile_failure_counterexample :
    decryptFile (List.replicate 16 0) idCipher = none ∧
    ¬((List.replicate 16 (0 : Byte)).length < 16 ∨
      ((List.replicate 16 (0 : Byte)).length - 16) % 16 ≠ 0 ∨
      (decryptedData (List.replicate 16 0) idCipher).getLastD 0 >
        (decryptedData (List.replicate 16 0) idCipher).length) := by decide

/-- C2 (amended): decryption fails exactly when the input's total byte length
is less than 16, or the ciphertext length (total − 16) is not a multiple of
16, or the envelope is exactly 16 bytes long (the decrypted data is empty),
or the final pad-length byte of the decrypted data exceeds the decrypted
data's length.  The `none` result models that no output file is written. -/
theorem decryptFile_eq_none_iff (C : BlockCipher) (data : List Byte) :
    decryptFile data C = none ↔
      data.length < 16 ∨ (data.length - 16) % 16 ≠ 0 ∨ data.length = 16 ∨
        (decryptedData data C).getLastD 0 > (decryptedData data C).length := by
  by_cases h1 : data.length < 16
  · simp [decryptFile, aesBlockSize, h1]
  · have hdl : (data.drop 16).length = data.length - 16 := List.length_drop _ _
    by_cases h2 : (data.length - 16) % 16 ≠ 0
    · simp [decryptFile, aesBlockSize, h1, hdl, h2]
    · push_neg at h2
      rw [decryptFile]
      simp only [aesBlockSize]
      rw [if_neg h1, if_neg (by rw [hdl]; omega)]
      rw [pkcs7Unpad_eq_none_iff,
        decryptedData_eq_nil_iff C data (by omega) h2]
      constructor
      · rintro (h | h)
        · exact Or.inr (Or.inr (Or.inl h))
        · exact Or.inr (Or.inr (Or.inr h))
      · rintro (h | h | h | h)
        · omega
        · omega
        · exact Or.inl h
        · exact Or.inr h

/-- C10: padding removal validates only non-emptiness and that the final
byte N does not exceed the input length L, and then returns the first
L − N bytes.  In particular it succeeds with N = 0 (input `[7, 7, 7, 0]`
returned unchanged), with 16 < N ≤ L (`[1, …, 1, 18]` of length 18 strips
more than one block), and on padding that is not N repeated N times
(`[2, 3, 4, 2]`, and a full decryption whose pad bytes read `…, 0, 2`),
so decryption can succeed on scheme-violating padding. -/
theorem pkcs7Unpad_lenient (d : List Byte) (hne : d ≠ [])
    (hle : d.getLastD 0 ≤ d.length) :
    pkcs7Unpad d = some (d.take (d.length - d.getLastD 0)) ∧
    pkcs7Unpad [7, 7, 7, 0] = some [7, 7, 7, 0] ∧
    pkcs7Unpad (List.replicate 17 1 ++ [18]) = some [] ∧
    pkcs7Unpad [2, 3, 4, 2] = some [2, 3] ∧
    decryptFile (List.replicate 16 0 ++ (List.replicate 15 0 ++ [2])) idCipher
      = some (List.replicate 14 0) := by
  refine ⟨?_, by decide, by decide, by decide, by decide⟩
  simp only [pkcs7Unpad]
  have h0 : ¬(d.length = 0) := fun h => hne (List.length_eq_zero.mp h)
  have h2 : ¬(d.getLastD 0 > d.length) := Nat.not_lt.mpr hle
  rw [if_neg h0, if_neg h2]

/-- Witness for C10 at the concrete input `[2, 3, 4, 2]`. -/
theorem pkcs7Unpad_lenient_witness :
    ([2, 3, 4, 2] : List Byte) ≠ [] ∧
    ([2, 3, 4, 2] : List Byte).getLastD 0 ≤ ([2, 3, 4, 2] : List Byte).length ∧
    pkcs7Unpad [2, 3, 4, 2]
      = some (([2, 3, 4, 2] : List Byte).take
          (([2, 3, 4, 2] : List Byte).length - ([2, 3, 4, 2] : List Byte).getLastD 0)) :=
  ⟨by decide, by decide, (pkcs7Unpad_lenient [2, 3, 4, 2] (by decide) (by decide)).1⟩

theorem pbkdf2Rounds_fst_length (prfk : List Byte → List Byte)
    (hprf : ∀ m, (prfk m).length = 32) :
    ∀ (n : Nat) (t u : List Byte), t.length = 32 →
      (pbkdf2Rounds prfk n (t, u)).1.length = 32 := by
  intro n
  induction n with
  | zero => intro t u ht; exact ht
  | succ n ih =>
      intro t u ht
      simp only [pbkdf2Rounds]
      apply ih
      simp [xorBytes_length, ht, hprf u]

/-- C4: key derivation is a deterministic function of the passphrase alone —
in this pure model `deriveKey` is a function, so deriving twice yields
bit-identical keys; the derived key is always exactly 32 bytes long; and the
derivation applies PBKDF2 to the fixed non-secret salt constant `"somesalt"`
with a fixed iteration count of 4096 ≥ 1000. -/
theorem deriveKey_spec (prf : List Byte → List Byte → List Byte)
    (hprf : ∀ k m, (prf k m).length = 32) (K : List Byte) :
    deriveKey prf K = deriveKey prf K ∧
    (deriveKey prf K).length = 32 ∧
    deriveKey prf K = pbkdf2 prf K fixedSalt pbkdf2Iterations derivedKeyLength 32 ∧
    1000 ≤ pbkdf2Iterations := by
  refine ⟨rfl, ?_, rfl, by decide⟩
  have hblock : (pbkdf2Block (prf K) fixedSalt 4096 1).length = 32 := by
    simp only [pbkdf2Block]
    exact pbkdf2Rounds_fst_length (prf K) (hprf K) _ _ _ (hprf K _)
  have hmap : ((List.range ((32 + 32 - 1) / 32)).map fun i =>
      pbkdf2Block (prf K) fixedSalt 4096 (i + 1))
        = [pbkdf2Block (prf K) fixedSalt 4096 1] := by
    norm_num [List.range_succ]
  simp only [deriveKey, pbkdf2, pbkdf2Iterations, derivedKeyLength]
  rw [hmap]
  simp [List.length_take, hblock]

theorem constPrf_length : ∀ k m : List Byte, (constPrf k m).length = 32 :=
  fun _ _ => by simp [constPrf]

/-- Witness for C4 with a concrete pseudo-random function and passphrase. -/
theorem deriveKey_spec_witness :
    (deriveKey constPrf [97]).length = 32 ∧ 1000 ≤ pbkdf2Iterations :=
  ⟨(deriveKey_spec constPrf constPrf_length [97]).2.1,
   (deriveKey_spec constPrf constPrf_length [97]).2.2.2⟩

/-- C8: encryption writes to the input path with the literal `-encrypted`
suffix appended, decryption writes to the input path truncated by the
suffix's length, and stripping after appending returns the original path. -/
theorem outputPath_roundtrip (p : List Char) :
    decryptOutputPath (encryptOutputPath p) = p ∧
    encryptOutputPath p = p ++ SuffixEncrypted ∧
    (∀ q : List Char, decryptOutputPath q = q.take (q.length - SuffixEncrypted.length)) := by
  refine ⟨?_, rfl, fun q => rfl⟩
  simp only [decryptOutputPath, encryptOutputPath, List.length_append]
  have h : p.length + SuffixEncrypted.length - SuffixEncrypted.length = p.length := by omega
  rw [h, List.take_append_of_le_length (le_refl _), List.take_length]

/-- The files a stack item contributes to the completed scan: none if the
directory is unreadable, otherwise all matching files below it. -/
def itemFiles (target : String) : String × Option (List Entry) → List String
  | (_, none) => []
  | (p, some es) => filesNamed target p es

/-- Whether a stack item's directory and everything below it can be read. -/
def itemReadable : String × Option (List Entry) → Bool
  | (_, none) => false
  | (_, some es) => entriesReadable es

theorem matchedFiles_cons_dir (encrypt : Bool) (p n : String)
    (c : Option (List Entry)) (es : List Entry) :
    matchedFiles encrypt p (.dir n c :: es) = matchedFiles encrypt p es := by
  simp [matchedFiles, List.filterMap_cons]

theorem matchedFiles_cons_file (encrypt : Bool) (p n : String) (es : List Entry) :
    matchedFiles encrypt p (.file n :: es)
      = (if n = markerName encrypt then [p ++ "/" ++ n] else [])
        ++ matchedFiles encrypt p es := by
  cases encrypt with
  | false =>
      simp only [matchedFiles, List.filterMap_cons, markerName]
      by_cases h1 : n = ".env"
      · subst h1; simp
      · by_cases h2 : n = ".env-encrypted"
        · subst h2; simp
        · simp [h1, h2]
  | true =>
      simp only [matchedFiles, List.filterMap_cons, markerName]
      by_cases h1 : n = ".env"
      · subst h1; simp
      · by_cases h2 : n = ".env-encrypted"
        · subst h2; simp
        · simp [h1, h2]

theorem childDirs_cons_file (p n : String) (es : List Entry) :
    childDirs p (.file n :: es) = childDirs p es := by
  simp [childDirs, List.filterMap_cons]

theorem childDirs_cons_dir (p n : String) (c : Option (List Entry)) (es : List Entry) :
    childDirs p (.dir n c :: es) = (p ++ "/" ++ n, c) :: childDirs p es := by
  simp [childDirs, List.filterMap_cons]

theorem filesNamed_decomp (encrypt : Bool) (p : String) (es : List Entry) :
    List.Perm (filesNamed (markerName encrypt) p es)
      (matchedFiles encrypt p es
        ++ (childDirs p es).flatMap (itemFiles (markerName encrypt))) := by
  induction es with
  | nil => simp [filesNamed, matchedFiles, childDirs]
  | cons e es ih =>
      cases e with
      | file n =>
          rw [show filesNamed (markerName encrypt) p (Entry.file n :: es)
                = (if n = markerName encrypt then [p ++ "/" ++ n] else [])
                  ++ filesNamed (markerName encrypt) p es from rfl,
            matchedFiles_cons_file, childDirs_cons_file, List.append_assoc]
          exact ih.append_left _
      | dir n c =>
          rw [show filesNamed (markerName encrypt) p (Entry.dir n c :: es)
                = entryFilesNamed (markerName encrypt) p (Entry.dir n c)
                  ++ filesNamed (markerName encrypt) p es from rfl,
            matchedFiles_cons_dir, childDirs_cons_dir, List.flatMap_cons]
          have hF : entryFilesNamed (markerName encrypt) p (Entry.dir n c)
              = itemFiles (markerName encrypt) (p ++ "/" ++ n, c) := by
            cases c <;> rfl
          rw [hF]
          apply (ih.append_left _).trans
          rw [← List.append_assoc, ← List.append_assoc]
          exact List.perm_append_comm.append_right _

theorem entriesReadable_childDirs (p : String) (es : List Entry)
    (h : entriesReadable es = true) :
    ∀ it ∈ childDirs p es, itemReadable it = true := by
  induction es with
  | nil => simp [childDirs]
  | cons e es ih =>
      simp only [entriesReadable, Bool.and_eq_true] at h
      cases e with
      | file n => rw [childDirs_cons_file]; exact ih h.2
      | dir n c =>
          rw [childDirs_cons_dir]
          intro it hit
          rcases List.mem_cons.mp hit with rfl | hit
          · cases c with
            | none => simp [entryReadable] at h
            | some fs => simpa [itemReadable, entryReadable] using h.1
          · exact ih h.2 it hit

theorem childDirs_unreadable (p : String) (es : List Entry)
    (h : entriesReadable es = false) :
    ∃ it ∈ childDirs p es, itemReadable it = false := by
  induction es with
  | nil => simp [entriesReadable] at h
  | cons e es ih =>
      by_cases hes : entriesReadable es = false
      · obtain ⟨it, hit, h0⟩ := ih hes
        cases e with
        | file n => exact ⟨it, by rw [childDirs_cons_file]; exact hit, h0⟩
        | dir n c =>
            exact ⟨it, by rw [childDirs_cons_dir]; exact List.mem_cons_of_mem _ hit, h0⟩
      · have hes' : entriesReadable es = true := by
          revert hes; cases entriesReadable es <;> simp
        have he : entryReadable e = false := by
          rw [entriesReadable, hes'] at h; simpa using h
        cases e with
        | file n => simp [entryReadable] at he
        | dir n c =>
            cases c with
            | none =>
                exact ⟨(p ++ "/" ++ n, none),
                  by rw [childDirs_cons_dir]; exact List.mem_cons_self _ _, rfl⟩
            | some fs =>
                refine ⟨(p ++ "/" ++ n, some fs),
                  by rw [childDirs_cons_dir]; exact List.mem_cons_self _ _, ?_⟩
                simpa [itemReadable, entryReadable] using he

theorem scanLoop_ok_perm (encrypt : Bool) :
    ∀ (n : Nat) (stack : List (String × Option (List Entry))) (acc : List String),
      (stack.map stackItemSize).sum ≤ n →
      (∀ it ∈ stack, itemReadable it = true) →
      ∃ l, scanLoop encrypt stack acc = Except.ok l ∧
        List.Perm l (acc ++ stack.flatMap (itemFiles (markerName encrypt))) := by
  intro n
  induction n with
  | zero =>
      intro stack acc hsize hread
      cases stack with
      | nil => exact ⟨acc, by simp only [scanLoop], by simp⟩
      | cons a rest =>
          exfalso
          obtain ⟨p, c⟩ := a
          have h1 : 1 ≤ stackItemSize (p, c) := by cases c <;> simp [stackItemSize]
          simp only [List.map_cons, List.sum_cons] at hsize
          omega
  | succ n ih =>
      intro stack acc hsize hread
      cases stack with
      | nil => exact ⟨acc, by simp only [scanLoop], by simp⟩
      | cons a rest =>
          obtain ⟨p, c⟩ := a
          cases c with
          | none =>
              have := hread (p, none) (List.mem_cons_self _ _)
              simp [itemReadable] at this
          | some es =>
              have hes : entriesReadable es = true := by
                simpa [itemReadable] using hread (p, some es) (List.mem_cons_self _ _)
              have hsize' :
                  ((((childDirs p es).reverse ++ rest)).map stackItemSize).sum ≤ n := by
                simp only [List.map_append, List.sum_append, List.map_reverse,
                  List.sum_reverse]
                have hc := childDirs_size_le p es
                simp only [List.map_cons, List.sum_cons, stackItemSize] at hsize
                omega
              have hread' :
                  ∀ it ∈ (childDirs p es).reverse ++ rest, itemReadable it = true := by
                intro it hit
                rcases List.mem_append.mp hit with hh | hh
                · exact entriesReadable_childDirs p es hes it (List.mem_reverse.mp hh)
                · exact hread it (List.mem_cons_of_mem _ hh)
              obtain ⟨l, hok, hperm⟩ := ih ((childDirs p es).reverse ++ rest)
                (acc ++ matchedFiles encrypt p es) hsize' hread'
              refine ⟨l, by rw [scanLoop]; exact hok, ?_⟩
              apply hperm.trans
              rw [List.flatMap_append, List.flatMap_cons]
              have hF : itemFiles (markerName encrypt) (p, some es)
                  = filesNamed (markerName encrypt) p es := rfl
              rw [hF]
              have s1 :
                  List.Perm
                    ((childDirs p es).reverse.flatMap (itemFiles (markerName encrypt))
                      ++ rest.flatMap (itemFiles (markerName encrypt)))
                    ((childDirs p es).flatMap (itemFiles (markerName encrypt))
                      ++ rest.flatMap (itemFiles (markerName encrypt))) :=
                ((List.reverse_perm _).flatMap_right _).append_right _
              apply (s1.append_left _).trans
              have heq :
                  (acc ++ matchedFiles encrypt p es)
                    ++ ((childDirs p es).flatMap (itemFiles (markerName encrypt))
                      ++ rest.flatMap (itemFiles (markerName encrypt)))
                  = acc ++ ((matchedFiles encrypt p es
                      ++ (childDirs p es).flatMap (itemFiles (markerName encrypt)))
                      ++ rest.flatMap (itemFiles (markerName encrypt))) := by
                simp [List.append_assoc]
              rw [heq]
              exact (((filesNamed_decomp encrypt p es).symm).append_right _).append_left acc

theorem scanLoop_error (encrypt : Bool) :
    ∀ (n : Nat) (stack : List (String × Option (List Entry))) (acc : List String),
      (stack.map stackItemSize).sum ≤ n →
      (∃ it ∈ stack, itemReadable it = false) →
      scanLoop encrypt stack acc = Except.error () := by
  intro n
  induction n with
  | zero =>
      intro stack acc hsize hex
      cases stack with
      | nil => obtain ⟨it, hit, _⟩ := hex; simp at hit
      | cons a rest =>
          exfalso
          obtain ⟨p, c⟩ := a
          have h1 : 1 ≤ stackItemSize (p, c) := by cases c <;> simp [stackItemSize]
          simp only [List.map_cons, List.sum_cons] at hsize
          omega
  | succ n ih =>
      intro stack acc hsize hex
      cases stack with
      | nil => obtain ⟨it, hit, _⟩ := hex; simp at hit
      | cons a rest =>
          obtain ⟨p, c⟩ := a
          cases c with
          | none => simp only [scanLoop]
          | some es =>
              rw [scanLoop]
              apply ih
              · simp only [List.map_append, List.sum_append, List.map_reverse,
                  List.sum_reverse]
                have hc := childDirs_size_le p es
                simp only [List.map_cons, List.sum_cons, stackItemSize] at hsize
                omega
              · obtain ⟨it, hit, hbad⟩ := hex
                rcases List.mem_cons.mp hit with heq | hit
                · have hes : entriesReadable es = false := by
                    rw [heq] at hbad
                    simpa [itemReadable] using hbad
                  obtain ⟨it1, hit1, hbad1⟩ := childDirs_unreadable p es hes
                  exact ⟨it1,
                    List.mem_append.mpr (Or.inl (List.mem_reverse.mpr hit1)), hbad1⟩
                · exact ⟨it, List.mem_append.mpr (Or.inr hit), hbad⟩

/-- C6: over a fully readable directory tree, scanning in encrypt mode
returns (as a multiset) exactly the regular files named `.env` at any depth,
and scanning in decrypt mode exactly the regular files named
`.env-encrypted`; no other file is ever included. -/
theorem getDotenvPaths_filter (folder : String) (es : List Entry) (encrypt : Bool)
    (h : entriesReadable es = true) :
    ∃ l, getDotenvPaths folder (some es) encrypt = Except.ok l ∧
      List.Perm l (filesNamed (markerName encrypt) folder es) := by
  obtain ⟨l, hok, hperm⟩ := scanLoop_ok_perm encrypt
    (([((folder : String), some es)]).map stackItemSize).sum [(folder, some es)] []
    (le_refl _)
    (by
      intro it hit
      rcases List.mem_cons.mp hit with heq | hit
      · rw [heq]; simpa [itemReadable] using h
      · simp at hit)
  refine ⟨l, hok, ?_⟩
  simpa [itemFiles] using hperm

/-- Witness for C6 on the spec's scenario tree rooted at `a`: the children
`.env`, `b/.env`, `.env-encrypted` and `notes.txt`. -/
theorem getDotenvPaths_filter_witness :
    entriesReadable
      [Entry.file ".env", Entry.dir "b" (some [Entry.file ".env"]),
        Entry.file ".env-encrypted", Entry.file "notes.txt"] = true ∧
    ∃ l, getDotenvPaths "a"
        (some [Entry.file ".env", Entry.dir "b" (some [Entry.file ".env"]),
          Entry.file ".env-encrypted", Entry.file "notes.txt"]) true = Except.ok l ∧
      List.Perm l (filesNamed (markerName true) "a"
        [Entry.file ".env", Entry.dir "b" (some [Entry.file ".env"]),
          Entry.file ".env-encrypted", Entry.file "notes.txt"]) :=
  ⟨by decide,
    getDotenvPaths_filter "a"
      [Entry.file ".env", Entry.dir "b" (some [Entry.file ".env"]),
        Entry.file ".env-encrypted", Entry.file "notes.txt"] true (by decide)⟩

/-- C9: if the root directory or any directory below it cannot be read, the
scan aborts with a fatal error and returns no candidate list at all — never
a partial one. -/
theorem getDotenvPaths_fatal (folder : String) (root : Option (List Entry))
    (encrypt : Bool) (h : optReadable root = false) :
    getDotenvPaths folder root encrypt = Except.error () := by
  cases root with
  | none => simp only [getDotenvPaths, scanLoop]
  | some es =>
      apply scanLoop_error encrypt
        (([((folder : String), some es)]).map stackItemSize).sum _ _ (le_refl _)
      exact ⟨(folder, some es), List.mem_cons_self _ _,
        by simpa [itemReadable] using h⟩

/-- Witness for C9: a readable root whose subdirectory `x` is unreadable. -/
theorem getDotenvPaths_fatal_witness :
    optReadable (some [Entry.dir "x" none]) = false ∧
    getDotenvPaths "." (some [Entry.dir "x" none]) false = Except.error () :=
  ⟨by decide, getDotenvPaths_fatal "." (some [Entry.dir "x" none]) false (by decide)⟩
